import Mathlib

/-!
Verification development for the part-time jobs repository.

The Python scripts under scripts/ are shallowly embedded here:
* scripts/add_internal_links_simple.py : keyword-cluster based internal link
  insertion (`add_links_to_description` and its helpers);
* scripts/fetch_brand_data_branddev.py : Brand.dev response normalization
  (`calculate_brightness`, `infer_color_type`, `extract_brand_data`);
* scripts/fetch_brand_data.py : Brandfetch response normalization
  (`extract_brand_data`).

Strings are embedded as `List Char`; Python regular expressions used by the
link script are all of the shape `\b(literal phrase)suffix\b` with the
IGNORECASE flag, and are embedded as literal case-insensitive word-bounded
phrase matching with an optional suffix (see `LinkPattern` and `matchLenAt`).
Fallible Python code (code that can raise, such as `int(s, 16)` on a
malformed string) is embedded with `Option`.
-/

namespace PartTime

/-- Strings of the embedded program. -/
abbrev Str := List Char

/-- ASCII lower-casing of one character, as performed by Python's
case-insensitive regex matching on the ASCII texts this program handles. -/
def lowerChar (c : Char) : Char :=
  if 'A' ≤ c ∧ c ≤ 'Z' then Char.ofNat (c.toNat + 32) else c

/-- The a-z upper-casing table of Python's `str.upper` (the program only
upper-cases role hints, which are ASCII). -/
def upperTable : List (Char × Char) :=
  [('a', 'A'), ('b', 'B'), ('c', 'C'), ('d', 'D'), ('e', 'E'), ('f', 'F'),
   ('g', 'G'), ('h', 'H'), ('i', 'I'), ('j', 'J'), ('k', 'K'), ('l', 'L'),
   ('m', 'M'), ('n', 'N'), ('o', 'O'), ('p', 'P'), ('q', 'Q'), ('r', 'R'),
   ('s', 'S'), ('t', 'T'), ('u', 'U'), ('v', 'V'), ('w', 'W'), ('x', 'X'),
   ('y', 'Y'), ('z', 'Z')]

/-- ASCII upper-casing of one character: table lookup, identity outside
a-z. -/
def upperChar (c : Char) : Char :=
  match upperTable.find? (fun p => decide (p.1 = c)) with
  | some p => p.2
  | none => c

/-- Python `str.upper()` on the embedded strings. -/
def upperStr (s : Str) : Str := s.map upperChar

/-- Python regex word character (`\w`) for the ASCII texts handled here. -/
def isWordChar (c : Char) : Bool := c.isAlphanum || decide (c = '_')

/-- Case-insensitive test that the first list is an initial segment of the
second (how a literal regex phrase matches at a fixed position under
IGNORECASE). -/
def ciStarts : Str → Str → Bool
  | [], _ => true
  | _ :: _, [] => false
  | a :: as, b :: bs => decide (lowerChar a = lowerChar b) && ciStarts as bs

/-- Case-sensitive test that the first list is an initial segment of the
second. -/
def listStarts : Str → Str → Bool
  | [], _ => true
  | _ :: _, [] => false
  | a :: as, b :: bs => decide (a = b) && listStarts as bs

/-- Python substring containment `needle in hay`. -/
def isSubstr (needle : Str) : Str → Bool
  | [] => needle.isEmpty
  | c :: rest => listStarts needle (c :: rest) || isSubstr needle rest

/-- Is position `j` of `text` occupied by a word character?  Positions past
the end are not. -/
def wordAt (text : Str) (j : Nat) : Bool :=
  match text.get? j with
  | some c => isWordChar c
  | none => false

/-- Does a regex word boundary `\b` hold just after position `j - 1`, when
the character before it is known to be a word character (true for every
character that ends a phrase of this program's patterns)? -/
def boundaryAfter (text : Str) (j : Nat) : Bool := !(wordAt text j)

/-- Case-insensitive test that character `j` of `text` is `c` (a lower-case
letter in all uses). -/
def ciAt (text : Str) (j : Nat) (c : Char) : Bool :=
  match text.get? j with
  | some d => decide (lowerChar d = lowerChar c)
  | none => false

/-- The three suffix shapes occurring in the link patterns of
scripts/add_internal_links_simple.py: no suffix, the optional plural `s?`
(whose `s` is outside the capture group and hence dropped by the
replacement), and the `(y|ies)` alternation (captured and kept). -/
inductive SuffixKind where
  | plain : SuffixKind
  | optS : SuffixKind
  | yIes : SuffixKind
deriving DecidableEq, Repr

/-- One pattern/replacement row of `KEYWORD_CLUSTERS`: the regex
`\b(phrase)suffix\b` with replacement `[\1...](url)`. -/
structure LinkPattern where
  phrase : Str
  sfx : SuffixKind
  url : Str
deriving DecidableEq, Repr

/-- Length of the regex match of pattern `p` at position `i` of `text`, if
any.  This is the leftmost-position, greedy-suffix semantics of Python
`re.search` with IGNORECASE for patterns of the shape `\b(phrase)s?\b`,
`\b(phrase)\b`, `\b(phrase)(y|ies)\b`: the two suffix alternatives are
mutually exclusive on the character following the phrase, so greedy
backtracking reduces to this case split. -/
def matchLenAt (p : LinkPattern) (text : Str) (i : Nat) : Option Nat :=
  if ciStarts p.phrase (text.drop i) ∧ (i = 0 ∨ wordAt text (i - 1) = false) then
    let j := i + p.phrase.length
    match p.sfx with
    | SuffixKind.plain =>
        if boundaryAfter text j then some p.phrase.length else none
    | SuffixKind.optS =>
        if ciAt text j 's' then
          if boundaryAfter text (j + 1) then some (p.phrase.length + 1) else none
        else if boundaryAfter text j then some p.phrase.length else none
    | SuffixKind.yIes =>
        if ciAt text j 'y' then
          if boundaryAfter text (j + 1) then some (p.phrase.length + 1) else none
        else if ciStarts ['i', 'e', 's'] (text.drop j) then
          if boundaryAfter text (j + 3) then some (p.phrase.length + 3) else none
        else none
  else none

/-- Scan positions `i, i+1, ...` (at most `fuel` of them) for the first
match of `p`. -/
def searchAux (p : LinkPattern) (text : Str) : Nat → Nat → Option (Nat × Nat)
  | _, 0 => none
  | i, fuel + 1 =>
    match matchLenAt p text i with
    | some len => some (i, len)
    | none => searchAux p text (i + 1) fuel

/-- Python `re.search(pattern, text, re.IGNORECASE)`: position and length of
the leftmost match, if any. -/
def searchPat (p : LinkPattern) (text : Str) : Option (Nat × Nat) :=
  searchAux p text 0 (text.length + 1)

/-- Length of the text reproduced by the replacement's capture groups: the
whole match for `(y|ies)` (replacement `[\1\2](url)`), just the phrase for
the others (the optional `s` is outside the group). -/
def grpLen (p : LinkPattern) (len : Nat) : Nat :=
  match p.sfx with
  | SuffixKind.yIes => len
  | _ => p.phrase.length

/-- Replace the match of `p` at position `i` (length `len`) of `text` by its
linked anchor form, as `re.sub(..., count=1)` does. -/
def spliceLink (p : LinkPattern) (text : Str) (i len : Nat) : Str :=
  text.take i ++ '[' :: ((text.drop i).take (grpLen p len))
    ++ ']' :: '(' :: (p.url ++ ')' :: text.drop (i + len))

/-- Replace the first occurrence of `p` in `text` by its linked form, if `p`
matches anywhere (the `re.search` then `re.sub(..., count=1)` pair). -/
def applyPat (p : LinkPattern) (text : Str) : Option Str :=
  (searchPat p text).map (fun il => spliceLink p text il.1 il.2)

/-- Try a cluster's patterns in priority order; the first one that matches is
applied (the `break` after `re.sub` in the source). -/
def tryPatterns : List LinkPattern → Str → Option Str
  | [], _ => none
  | p :: ps, text =>
    match applyPat p text with
    | some r => some r
    | none => tryPatterns ps text

/-- Helper to build a pattern row with the optional plural suffix `s?`. -/
def pOptS (phrase url : String) : LinkPattern :=
  LinkPattern.mk phrase.toList SuffixKind.optS url.toList

/-- Helper to build a pattern row with no suffix. -/
def pPlain (phrase url : String) : LinkPattern :=
  LinkPattern.mk phrase.toList SuffixKind.plain url.toList

/-- Helper to build a pattern row with the `(y|ies)` suffix. -/
def pYIes (phrase url : String) : LinkPattern :=
  LinkPattern.mk phrase.toList SuffixKind.yIes url.toList

/-- One value of the `KEYWORD_CLUSTERS` dict: a target url and the ordered
pattern list. -/
structure Cluster where
  url : Str
  patterns : List LinkPattern
deriving DecidableEq, Repr

/-- The `KEYWORD_CLUSTERS` dict of scripts/add_internal_links_simple.py, in
its insertion order. -/
def KEYWORD_CLUSTERS : List (Str × Cluster) :=
  [ ("CFO".toList, Cluster.mk "/fractional-jobs?role=CFO".toList
      [ pOptS "Fractional CFO" "/fractional-jobs?role=CFO",
        pOptS "fractional CFO" "/fractional-jobs?role=CFO",
        pOptS "Fractional Finance Director" "/fractional-jobs?role=CFO",
        pOptS "fractional finance director" "/fractional-jobs?role=CFO",
        pOptS "CFO role" "/fractional-jobs?role=CFO",
        pOptS "part-time CFO" "/fractional-jobs?role=CFO",
        pYIes "CFO opportunit" "/fractional-jobs?role=CFO",
        pPlain "finance leadership" "/fractional-jobs?role=CFO",
        pOptS "senior finance leader" "/fractional-jobs?role=CFO",
        pPlain "strategic financial" "/fractional-jobs?role=CFO" ]),
    ("CMO".toList, Cluster.mk "/fractional-jobs?role=CMO".toList
      [ pOptS "Fractional CMO" "/fractional-jobs?role=CMO",
        pOptS "fractional CMO" "/fractional-jobs?role=CMO",
        pOptS "Fractional Marketing Director" "/fractional-jobs?role=CMO",
        pOptS "fractional marketing director" "/fractional-jobs?role=CMO",
        pOptS "CMO role" "/fractional-jobs?role=CMO",
        pOptS "part-time CMO" "/fractional-jobs?role=CMO",
        pYIes "CMO opportunit" "/fractional-jobs?role=CMO",
        pPlain "marketing leadership" "/fractional-jobs?role=CMO" ]),
    ("CTO".toList, Cluster.mk "/fractional-jobs?role=CTO".toList
      [ pOptS "Fractional CTO" "/fractional-jobs?role=CTO",
        pOptS "fractional CTO" "/fractional-jobs?role=CTO",
        pOptS "Fractional Tech Director" "/fractional-jobs?role=CTO",
        pOptS "fractional tech director" "/fractional-jobs?role=CTO",
        pOptS "CTO role" "/fractional-jobs?role=CTO",
        pOptS "part-time CTO" "/fractional-jobs?role=CTO",
        pYIes "CTO opportunit" "/fractional-jobs?role=CTO",
        pPlain "technology leadership" "/fractional-jobs?role=CTO",
        pPlain "technical leadership" "/fractional-jobs?role=CTO" ]),
    ("COO".toList, Cluster.mk "/fractional-jobs?role=COO".toList
      [ pOptS "Fractional COO" "/fractional-jobs?role=COO",
        pOptS "fractional COO" "/fractional-jobs?role=COO",
        pOptS "Fractional Operations Director" "/fractional-jobs?role=COO",
        pOptS "fractional operations director" "/fractional-jobs?role=COO",
        pOptS "COO role" "/fractional-jobs?role=COO",
        pOptS "part-time COO" "/fractional-jobs?role=COO",
        pYIes "COO opportunit" "/fractional-jobs?role=COO",
        pPlain "operations leadership" "/fractional-jobs?role=COO" ]),
    ("general".toList, Cluster.mk "/fractional-jobs".toList
      [ pOptS "fractional role" "/fractional-jobs",
        pOptS "fractional job" "/fractional-jobs",
        pOptS "fractional executive" "/fractional-jobs",
        pOptS "fractional leader" "/fractional-jobs",
        pOptS "fractional position" "/fractional-jobs",
        pOptS "part-time executive" "/fractional-jobs",
        pOptS "portfolio career" "/fractional-jobs",
        pYIes "fractional opportunit" "/fractional-jobs",
        pPlain "fractional work" "/fractional-jobs",
        pOptS "fractional engagement" "/fractional-jobs" ]) ]

/-- Dict lookup `KEYWORD_CLUSTERS.get(cluster_name)`. -/
def clustersGet (name : Str) : Option Cluster :=
  (KEYWORD_CLUSTERS.find? (fun kv => decide (kv.1 = name))).map (fun kv => kv.2)

/-- The substring whose presence short-circuits the transform
(`'](/fractional-jobs' in text`). -/
def LINK_MARK : Str := "](/fractional-jobs".toList

/-- The fixed canonical order of the role clusters appended after the
priority ones (`for cluster in ['CFO', 'CMO', 'CTO', 'COO']`). -/
def roleClusters : List Str :=
  ["CFO".toList, "CMO".toList, "CTO".toList, "COO".toList]

/-- Lines 111-129 of scripts/add_internal_links_simple.py: build the cluster
evaluation order from the role hint. `none` embeds Python `None`; the empty
string is falsy like `None`. -/
def determineClusterOrder (role_category : Option Str) : List Str :=
  let base : List Str := ["general".toList]
  let withRole : List Str :=
    match role_category with
    | none => base
    | some rc =>
      if rc = [] then base
      else
        let ru := upperStr rc
        if ru ∈ KEYWORD_CLUSTERS.map Prod.fst then ru :: base
        else if isSubstr "CFO".toList ru || isSubstr "FINANCE".toList ru then
          "CFO".toList :: base
        else if isSubstr "CMO".toList ru || isSubstr "MARKET".toList ru then
          "CMO".toList :: base
        else if isSubstr "CTO".toList ru || isSubstr "TECH".toList ru then
          "CTO".toList :: base
        else if isSubstr "COO".toList ru || isSubstr "OPERATION".toList ru then
          "COO".toList :: base
        else base
  roleClusters.foldl (fun acc c => if c ∈ acc then acc else acc ++ [c]) withRole

/-- The main loop of `add_links_to_description` (lines 131-154): walk the
cluster order, adding at most one link per cluster and at most `max_links = 3`
in total.  State is `(result, links_added, clusters_used)`. -/
def applyClusters : List Str → Str → Nat → List Str → Str × Nat × List Str
  | [], result, links, used => (result, links, used)
  | cname :: rest, result, links, used =>
    if 3 ≤ links then (result, links, used)
    else
      match clustersGet cname with
      | none => applyClusters rest result links used
      | some cl =>
        match tryPatterns cl.patterns result with
        | none => applyClusters rest result links used
        | some r => applyClusters rest r (links + 1) (used ++ [cname])

/-- The function `add_links_to_description(text, role_category)` of
scripts/add_internal_links_simple.py. Returns
`(updated_text, links_added, clusters_used)`. -/
def add_links_to_description (text : Str) (role_category : Option Str) :
    Str × Nat × List Str :=
  if text = [] then (text, 0, [])
  else if isSubstr LINK_MARK text then (text, 0, [])
  else applyClusters (determineClusterOrder role_category) text 0 []

/-! Embedding of scripts/fetch_brand_data_branddev.py. -/

/-- Value of one hexadecimal digit, the digit-only core of Python
`int(s, 16)` (which raises on non-digits; `none` embeds the raised
`ValueError`). -/
def hexDigitVal (c : Char) : Option Nat :=
  if '0' ≤ c ∧ c ≤ '9' then some (c.toNat - '0'.toNat)
  else if 'a' ≤ c ∧ c ≤ 'f' then some (c.toNat - 'a'.toNat + 10)
  else if 'A' ≤ c ∧ c ≤ 'F' then some (c.toNat - 'A'.toNat + 10)
  else none

/-- Accumulating loop of `int(s, 16)` over the digits. -/
def parseHexLoop : Nat → Str → Option Nat
  | acc, [] => some acc
  | acc, c :: cs =>
    match hexDigitVal c with
    | some d => parseHexLoop (acc * 16 + d) cs
    | none => none

/-- Python `int(s, 16)` on a digits-only string; `none` on the empty string
or on a non-digit (the cases where `int` raises on this program's inputs). -/
def parseHex : Str → Option Nat
  | [] => none
  | c :: cs => parseHexLoop 0 (c :: cs)

/-- Python slice `s[i:j]` for `0 ≤ i ≤ j`. -/
def sliceStr (s : Str) (i j : Nat) : Str := (s.drop i).take (j - i)

/-- The function `calculate_brightness(hex_color)` of
scripts/fetch_brand_data_branddev.py.  `int(x)` of the nonnegative float
quotient is embedded as natural floor division, which is exact here: for
`s ≤ 255000` the float `s / 1000` never rounds across an integer. -/
def calculate_brightness (hex_color : Str) : Option Nat :=
  let h := hex_color.dropWhile (fun c => decide (c = '#'))
  match parseHex (sliceStr h 0 2) with
  | none => none
  | some r =>
    match parseHex (sliceStr h 2 4) with
    | none => none
    | some g =>
      match parseHex (sliceStr h 4 6) with
      | none => none
      | some b => some ((r * 299 + g * 587 + b * 114) / 1000)

/-- The function `infer_color_type(color_name, brightness)` of
scripts/fetch_brand_data_branddev.py. -/
def infer_color_type (color_name : Str) (brightness : Nat) : Str :=
  let name_lower := color_name.map lowerChar
  if brightness < 50 then "dark".toList
  else if 200 < brightness then "light".toList
  else if isSubstr "primary".toList name_lower || isSubstr "brand".toList name_lower then
    "brand".toList
  else if isSubstr "accent".toList name_lower || isSubstr "secondary".toList name_lower then
    "accent".toList
  else if brightness < 128 then "dark".toList
  else "accent".toList

/-- One raw entry of `brand['colors']`: the `hex` and `name` fields, absent
fields embedded as `none`. -/
structure RawColor where
  hex : Option Str
  name : Option Str
deriving DecidableEq, Repr

/-- One normalized color dict `{'hex': ..., 'type': ..., 'brightness': ...}`. -/
structure BrandColor where
  hex : Str
  type : Str
  brightness : Nat
deriving DecidableEq, Repr

/-- The per-entry normalization inside the colors loop of
`extract_brand_data` (lines 104-111): default hex `'#888888'`, brightness,
hint-based type. -/
def normColor (c : RawColor) : Option BrandColor :=
  let hexVal := c.hex.getD "#888888".toList
  match calculate_brightness hexVal with
  | none => none
  | some b => some (BrandColor.mk hexVal (infer_color_type (c.name.getD []) b) b)

/-- Stable insertion of a color into a brightness-sorted list: an element
already in place stays before a newly inserted one of equal brightness, so
the resulting sort agrees with Python's stable `list.sort`. -/
def insertSorted (c : BrandColor) : List BrandColor → List BrandColor
  | [] => [c]
  | d :: ds =>
    if d.brightness < c.brightness then d :: insertSorted c ds else c :: d :: ds

/-- Python `colors.sort(key=lambda c: c['brightness'])` (stable, ascending),
embedded as a stable insertion sort, which computes the same list. -/
def sortColors : List BrandColor → List BrandColor
  | [] => []
  | c :: cs => insertSorted c (sortColors cs)

/-- Set the `type` field of element `i`. -/
def setType : List BrandColor → Nat → Str → List BrandColor
  | [], _, _ => []
  | c :: cs, 0, t => BrandColor.mk c.hex t c.brightness :: cs
  | c :: cs, i + 1, t => c :: setType cs i t

/-- The positional type override of `extract_brand_data` (lines 117-122):
on a nonempty sorted list, index 0 is forced to dark; the last index to
light when the length exceeds 1; index 1 to accent when the length exceeds
2. -/
def overrideTypes (colors : List BrandColor) : List BrandColor :=
  if colors = [] then colors
  else
    let c1 := setType colors 0 "dark".toList
    let c2 := if 1 < colors.length then setType c1 (colors.length - 1) "light".toList else c1
    if 2 < colors.length then setType c2 1 "accent".toList else c2

/-- The whole color pipeline of `extract_brand_data` (lines 103-122):
normalize each entry, sort by brightness, apply the positional override. -/
def normalizeColors (raw : List RawColor) : Option (List BrandColor) :=
  match raw.mapM normColor with
  | none => none
  | some cs => some (overrideTypes (sortColors cs))

/-- One entry of `brand['logos']` in the Brand.dev response. -/
structure BDLogo where
  type : Option Str
  mode : Option Str
  url : Option Str
deriving DecidableEq, Repr

/-- One entry of `brand['backdrops']` in the Brand.dev response. -/
structure BDBackdrop where
  url : Option Str
deriving DecidableEq, Repr

/-- The parts of the Brand.dev `brand` object that `extract_brand_data`
reads.  `industries_eic` is the list of the `'industry'` fields of
`brand['industries']['eic']`. -/
structure BrandDevBrand where
  colors : List RawColor
  logos : List BDLogo
  backdrops : List BDBackdrop
  description : Option Str
  city : Option Str
  country : Option Str
  industries_eic : List (Option Str)
deriving DecidableEq, Repr

/-- Python dict assignment `d[k] = v`: replace in place if the key exists,
else append (insertion order preserved). -/
def upsert : List (Str × Option Str) → Str → Option Str → List (Str × Option Str)
  | [], k, v => [(k, v)]
  | (k', v') :: rest, k, v =>
    if k' = k then (k, v) :: rest else (k', v') :: upsert rest k v

/-- Dict lookup `d.get(k)` on the embedded dicts. -/
def lookupKey (m : List (Str × Option Str)) (k : Str) : Option (Option Str) :=
  (m.find? (fun kv => decide (kv.1 = k))).map (fun kv => kv.2)

/-- Python truthiness of an optional string (`None` and `''` are falsy). -/
def truthyOptStr : Option Str → Bool
  | some s => !s.isEmpty
  | none => false

/-- Round half to even of `100 * num / den` (`den > 0`), on naturals: the
exact value of Python `round(num / den, 2)` scaled by 100 for the small
exact fractions this program produces. -/
def pyRound2Num (num den : Nat) : Nat :=
  let t := 100 * num
  let q := t / den
  let r := t % den
  if 2 * r < den then q
  else if den < 2 * r then q + 1
  else if q % 2 = 0 then q else q + 1

/-- The normalized record returned by `extract_brand_data` of
scripts/fetch_brand_data_branddev.py (fields the script fills with `None`
are typed `Option` and set to `none`). -/
structure BrandDevExtract where
  colors : List BrandColor
  font_title : Option Str
  font_body : Option Str
  logos : List (Str × Option Str)
  banners : List (Str × Option Str)
  description : Option Str
  founded : Option Int
  employees : Option Int
  city : Option Str
  country : Option Str
  company_kind : Option Str
  industries : List Str
  quality_score : ℚ
deriving DecidableEq, Repr

/-- The `logos` loop of scripts/fetch_brand_data_branddev.py
`extract_brand_data` (lines 125-135): key `'{type}_{mode}'` with
`'has_opaque_background'` normalized to `'dark'`. -/
def branddevLogos (logos : List BDLogo) : List (Str × Option Str) :=
  logos.foldl
    (fun acc logo =>
      let logo_type := logo.type.getD "logo".toList
      let mode0 := logo.mode.getD "dark".toList
      let mode := if mode0 = "has_opaque_background".toList then "dark".toList else mode0
      upsert acc (logo_type ++ '_' :: mode) logo.url)
    []

/-- The six-element `quality_factors` checklist (lines 155-162). -/
def qualityFactors (colors : List BrandColor) (logos banners : List (Str × Option Str))
    (description city : Option Str) (industries : List Str) : List Bool :=
  [ !colors.isEmpty, !logos.isEmpty, !banners.isEmpty,
    truthyOptStr description, truthyOptStr city, !industries.isEmpty ]

/-- The function `extract_brand_data(api_response)` of
scripts/fetch_brand_data_branddev.py, from the `brand` object onward.
`none` embeds the `ValueError` raised by `calculate_brightness` on a
malformed hex. The float `sum(quality_factors) / len(quality_factors)`
rounded to 2 decimals is embedded exactly as `pyRound2Num count 6 / 100`. -/
def extract_brand_data_branddev (brand : BrandDevBrand) : Option BrandDevExtract :=
  match normalizeColors brand.colors with
  | none => none
  | some colors =>
    let logos := branddevLogos brand.logos
    let banners : List (Str × Option Str) :=
      match brand.backdrops with
      | [] => []
      | bd :: _ => [("banner".toList, bd.url)]
    let industries : List Str :=
      brand.industries_eic.filterMap
        (fun o => match o with
          | some s => if s = [] then none else some s
          | none => none)
    let qf := qualityFactors colors logos banners brand.description brand.city industries
    some (BrandDevExtract.mk colors none none logos banners brand.description
      none none brand.city brand.country none industries
      ((pyRound2Num (qf.count true) 6 : ℚ) / 100))

/-! Embedding of scripts/fetch_brand_data.py (Brandfetch). -/

/-- One entry of a Brandfetch logo's `formats` list. -/
structure BFFormat where
  format : Option Str
  src : Option Str
deriving DecidableEq, Repr

/-- One entry of the Brandfetch `logos` list. -/
structure BFLogo where
  type : Option Str
  theme : Option Str
  formats : List BFFormat
deriving DecidableEq, Repr

/-- One entry of the Brandfetch `fonts` list. -/
structure BFFont where
  type : Option Str
  name : Option Str
deriving DecidableEq, Repr

/-- One entry of the Brandfetch `colors` list (passed through unchanged). -/
structure BFColor where
  hex : Option Str
  type : Option Str
  brightness : Option Nat
deriving DecidableEq, Repr

/-- The `company` object of the Brandfetch response. -/
structure BFCompany where
  foundedYear : Option Int
  numberOfEmployees : Option Int
  industries : List (Option Str)
deriving DecidableEq, Repr

/-- The parts of the Brandfetch response that `extract_brand_data` reads.
`industries` holds the `name` fields of `company['industries']`. -/
structure BFResponse where
  colors : List BFColor
  fonts : List BFFont
  logos : List BFLogo
  description : Option Str
  company : BFCompany
  qualityScore : Option ℚ
deriving DecidableEq, Repr

/-- The record returned by `extract_brand_data` of
scripts/fetch_brand_data.py. -/
structure BFExtract where
  colors : List BFColor
  font_title : Option Str
  font_body : Option Str
  logos : List (Str × Option Str)
  description : Option Str
  founded : Option Int
  employees : Option Int
  location : Option Str
  industries : List (Option Str)
  quality_score : Option ℚ
deriving DecidableEq, Repr

/-- The inner `formats` loop of the Brandfetch logos extraction (lines
96-103): an SVG format stores its URL and breaks out; a PNG stores its URL
and keeps scanning (so a later PNG overwrites it). -/
def logoFormatsLoop (acc : List (Str × Option Str)) (key : Str) :
    List BFFormat → List (Str × Option Str)
  | [] => acc
  | fmt :: rest =>
    if fmt.format = some "svg".toList then upsert acc key fmt.src
    else if fmt.format = some "png".toList then
      logoFormatsLoop (upsert acc key fmt.src) key rest
    else logoFormatsLoop acc key rest

/-- The `logos` loop of the Brandfetch `extract_brand_data` (lines 89-103):
key `'{type}_{theme}'`. -/
def brandfetchLogos (logos : List BFLogo) : List (Str × Option Str) :=
  logos.foldl
    (fun acc logo =>
      let key := logo.type.getD "logo".toList ++ '_' :: logo.theme.getD "light".toList
      logoFormatsLoop acc key logo.formats)
    []

/-- The `fonts` loop of the Brandfetch `extract_brand_data` (lines 80-87);
the state is `(font_title, font_body)` and a later entry of the same type
wins. -/
def brandfetchFonts (fonts : List BFFont) : Option Str × Option Str :=
  fonts.foldl
    (fun st font =>
      if font.type = some "title".toList then (font.name, st.2)
      else if font.type = some "body".toList then (st.1, font.name)
      else st)
    (none, none)

/-- The function `extract_brand_data(api_response)` of
scripts/fetch_brand_data.py.  The provider's `qualityScore` is stored
unchanged. -/
def extract_brand_data_brandfetch (r : BFResponse) : BFExtract :=
  let fonts := brandfetchFonts r.fonts
  BFExtract.mk
    (r.colors.map (fun c => BFColor.mk c.hex c.type c.brightness))
    fonts.1 fonts.2
    (brandfetchLogos r.logos)
    r.description
    r.company.foundedYear
    r.company.numberOfEmployees
    none
    r.company.industries
    r.qualityScore

/-! Definitions written from the spec's words, for comparison with the
embedded code. -/

/-- Modelled from the spec: the cluster evaluation order as the spec
describes it — "an ordered list starting with the cluster matching
`role_hint` (exact cluster-name match, else keyword-based fallback),
followed by 'general', followed by the remaining role clusters in a fixed
canonical order (CFO, CMO, CTO, COO) skipping any already placed". -/
def specClusterOrder (role_hint : Option Str) : List Str :=
  let first : List Str :=
    match role_hint with
    | none => []
    | some rc =>
      if rc = [] then []
      else
        let ru := upperStr rc
        if ru ∈ KEYWORD_CLUSTERS.map Prod.fst then [ru]
        else if isSubstr "CFO".toList ru || isSubstr "FINANCE".toList ru then
          ["CFO".toList]
        else if isSubstr "CMO".toList ru || isSubstr "MARKET".toList ru then
          ["CMO".toList]
        else if isSubstr "CTO".toList ru || isSubstr "TECH".toList ru then
          ["CTO".toList]
        else if isSubstr "COO".toList ru || isSubstr "OPERATION".toList ru then
          ["COO".toList]
        else []
  let placed := first ++ ["general".toList]
  placed ++ roleClusters.filter (fun c => decide (c ∉ placed))

/-- Modelled from the spec: the rounding the spec claims for the brightness
formula, `round((299R + 587G + 114B) / 1000)` — round `num / den` to the
nearest integer (half to even, as Python's built-in `round`), on
naturals. -/
def specRoundNat (num den : Nat) : Nat :=
  let q := num / den
  let r := num % den
  if 2 * r < den then q
  else if den < 2 * r then q + 1
  else if q % 2 = 0 then q else q + 1

/-! Auxiliary lemmas. -/

theorem upperChar_ne_g (c : Char) : upperChar c ≠ 'g' := by
  intro h
  unfold upperChar at h
  cases hf : upperTable.find? (fun p => decide (p.1 = c)) with
  | some p =>
    rw [hf] at h
    have hmem := List.mem_of_find?_eq_some hf
    have hall : ∀ q ∈ upperTable, q.2 ≠ 'g' := by decide
    exact hall p hmem h
  | none =>
    rw [hf] at h
    subst h
    rw [List.find?_eq_none] at hf
    have hg := hf ('g', 'G') (by decide)
    simp at hg

theorem upperStr_ne_general (s : Str) : upperStr s ≠ "general".toList := by
  intro h
  have hgen : "general".toList = 'g' :: "eneral".toList := rfl
  rw [hgen] at h
  cases s with
  | nil => exact absurd h (by simp [upperStr])
  | cons c cs =>
    have h' : upperChar c :: upperStr cs = 'g' :: "eneral".toList := h
    injection h' with h1 _
    exact upperChar_ne_g c h1

theorem foldl_addNew_eq_filter :
    ∀ (l acc : List Str), l.Nodup →
      l.foldl (fun a c => if c ∈ a then a else a ++ [c]) acc
        = acc ++ l.filter (fun c => decide (c ∉ acc)) := by
  intro l
  induction l with
  | nil => intro acc _; simp
  | cons c l ih =>
    intro acc hnd
    rw [List.nodup_cons] at hnd
    obtain ⟨hc, hl⟩ := hnd
    simp only [List.foldl_cons, List.filter_cons]
    by_cases hmem : c ∈ acc
    · rw [if_pos hmem]
      have hdec : decide (c ∉ acc) = false := by simp [hmem]
      rw [hdec]
      simpa using ih acc hl
    · rw [if_neg hmem]
      have hdec : decide (c ∉ acc) = true := by simp [hmem]
      rw [hdec]
      rw [ih (acc ++ [c]) hl]
      have h2 : l.filter (fun d => decide (d ∉ acc ++ [c]))
          = l.filter (fun d => decide (d ∉ acc)) := by
        apply List.filter_congr
        intro d hd
        have hdc : d ≠ c := fun he => hc (he ▸ hd)
        simp [List.mem_append, hdc]
      rw [h2]
      simp [List.append_assoc]

theorem order_spec_eq (rh : Option Str) :
    determineClusterOrder rh = specClusterOrder rh := by
  have hfold : ∀ acc : List Str,
      roleClusters.foldl (fun a c => if c ∈ a then a else a ++ [c]) acc
        = acc ++ roleClusters.filter (fun c => decide (c ∉ acc)) :=
    fun acc => foldl_addNew_eq_filter roleClusters acc (by decide)
  simp only [determineClusterOrder, specClusterOrder]
  cases rh with
  | none =>
    rw [hfold]
    rfl
  | some rc =>
    by_cases h0 : rc = []
    · simp only [if_pos h0]
      rw [hfold]
      rfl
    · simp only [if_neg h0]
      split_ifs <;> (rw [hfold]; rfl)

theorem placed_append_nodup (placed : List Str) (hp : placed.Nodup) :
    (placed ++ roleClusters.filter (fun c => decide (c ∉ placed))).Nodup := by
  rw [List.nodup_append]
  refine ⟨hp, List.Nodup.filter _ (by decide), ?_⟩
  intro a ha hb
  rw [List.mem_filter] at hb
  have := hb.2
  simp only [decide_eq_true_eq] at this
  exact this ha

theorem order_nodup (rh : Option Str) : (determineClusterOrder rh).Nodup := by
  rw [order_spec_eq]
  unfold specClusterOrder
  cases rh with
  | none => exact placed_append_nodup _ (by decide)
  | some rc =>
    by_cases h0 : rc = []
    · simp only [if_pos h0]
      exact placed_append_nodup _ (by decide)
    · simp only [if_neg h0]
      split_ifs <;> apply placed_append_nodup <;>
        first
          | decide
          | (simp only [List.cons_append, List.nil_append, List.nodup_cons,
               List.mem_singleton, List.not_mem_nil, not_false_iff,
               and_true, List.nodup_nil, List.mem_cons, or_false]
             exact upperStr_ne_general rc)

theorem listStarts_self_append : ∀ (n t : Str), listStarts n (n ++ t) = true := by
  intro n
  induction n with
  | nil => intro t; rfl
  | cons a as ih => intro t; simp [listStarts, ih]

theorem listStarts_exists : ∀ (n h : Str), listStarts n h = true → ∃ t, h = n ++ t := by
  intro n
  induction n with
  | nil => intro h _; exact ⟨h, rfl⟩
  | cons a as ih =>
    intro h hs
    cases h with
    | nil => exact absurd hs (by simp [listStarts])
    | cons b bs =>
      rw [listStarts, Bool.and_eq_true] at hs
      obtain ⟨hab, hrest⟩ := hs
      have hab' : a = b := of_decide_eq_true hab
      obtain ⟨t, ht⟩ := ih bs hrest
      exact ⟨t, by rw [ht, hab', List.cons_append]⟩

theorem listStarts_cons_same (c : Char) (n h : Str) :
    listStarts (c :: n) (c :: h) = listStarts n h := by
  simp [listStarts]

theorem isSubstr_of_starts (n h : Str) (hs : listStarts n h = true) :
    isSubstr n h = true := by
  cases h with
  | nil =>
    cases n with
    | nil => rfl
    | cons a as => exact absurd hs (by simp [listStarts])
  | cons c t => simp [isSubstr, hs]

theorem isSubstr_cons_of (n : Str) (c : Char) (t : Str) (h : isSubstr n t = true) :
    isSubstr n (c :: t) = true := by
  simp [isSubstr, h]

theorem isSubstr_append_left : ∀ (a n h : Str), isSubstr n h = true →
    isSubstr n (a ++ h) = true := by
  intro a
  induction a with
  | nil => intro n h hs; simpa using hs
  | cons c cs ih =>
    intro n h hs
    rw [List.cons_append]
    exact isSubstr_cons_of _ _ _ (ih n h hs)

theorem all_pattern_urls : ∀ kv ∈ KEYWORD_CLUSTERS, ∀ p ∈ kv.2.patterns,
    listStarts "/fractional-jobs".toList p.url = true := by decide

theorem spliceLink_marker (p : LinkPattern) (text : Str) (i len : Nat)
    (hurl : listStarts "/fractional-jobs".toList p.url = true) :
    isSubstr LINK_MARK (spliceLink p text i len) = true := by
  obtain ⟨t, ht⟩ := listStarts_exists _ _ hurl
  have hshape : spliceLink p text i len
      = (text.take i ++ '[' :: (text.drop i).take (grpLen p len))
        ++ (']' :: '(' :: (p.url ++ ')' :: text.drop (i + len))) := by
    simp [spliceLink]
  rw [hshape]
  apply isSubstr_append_left
  apply isSubstr_of_starts
  have hmk : LINK_MARK = ']' :: '(' :: "/fractional-jobs".toList := rfl
  rw [hmk, ht, listStarts_cons_same, listStarts_cons_same, List.append_assoc]
  exact listStarts_self_append _ _

theorem applyPat_marker (p : LinkPattern) (text r : Str)
    (hurl : listStarts "/fractional-jobs".toList p.url = true)
    (h : applyPat p text = some r) : isSubstr LINK_MARK r = true := by
  unfold applyPat at h
  rw [Option.map_eq_some'] at h
  obtain ⟨il, _, hr⟩ := h
  rw [← hr]
  exact spliceLink_marker p text il.1 il.2 hurl

theorem tryPatterns_marker : ∀ (ps : List LinkPattern) (text r : Str),
    (∀ p ∈ ps, listStarts "/fractional-jobs".toList p.url = true) →
    tryPatterns ps text = some r → isSubstr LINK_MARK r = true := by
  intro ps
  induction ps with
  | nil => intro text r _ h; exact absurd h (by simp [tryPatterns])
  | cons p ps ih =>
    intro text r hall h
    rw [tryPatterns] at h
    cases ha : applyPat p text with
    | some r0 =>
      rw [ha] at h
      injection h with h1
      rw [← h1]
      exact applyPat_marker p text r0 (hall p (List.mem_cons_self p ps)) ha
    | none =>
      rw [ha] at h
      exact ih text r (fun q hq => hall q (List.mem_cons_of_mem p hq)) h

theorem tryPatterns_eq_none : ∀ (ps : List LinkPattern) (text : Str),
    (∀ p ∈ ps, searchPat p text = none) → tryPatterns ps text = none := by
  intro ps
  induction ps with
  | nil => intro text _; rfl
  | cons p ps ih =>
    intro text h
    have hp : searchPat p text = none := h p (List.mem_cons_self p ps)
    have ha : applyPat p text = none := by unfold applyPat; rw [hp]; rfl
    rw [tryPatterns, ha]
    exact ih text (fun q hq => h q (List.mem_cons_of_mem p hq))

theorem searchAux_spec (p : LinkPattern) (text : Str) :
    ∀ (fuel i j len : Nat), searchAux p text i fuel = some (j, len) →
      i ≤ j ∧ matchLenAt p text j = some len ∧
      (∀ k, i ≤ k → k < j → matchLenAt p text k = none) := by
  intro fuel
  induction fuel with
  | zero => intro i j len h; exact absurd h (by simp [searchAux])
  | succ fuel ih =>
    intro i j len h
    rw [searchAux] at h
    cases hm : matchLenAt p text i with
    | some l =>
      rw [hm] at h
      injection h with h1
      have hij : i = j := congrArg Prod.fst h1
      have hlen : l = len := congrArg Prod.snd h1
      subst hij
      subst hlen
      exact ⟨le_refl i, hm, fun k hk1 hk2 => absurd hk2 (by omega)⟩
    | none =>
      rw [hm] at h
      obtain ⟨h1, h2, h3⟩ := ih (i + 1) j len h
      refine ⟨by omega, h2, fun k hk1 hk2 => ?_⟩
      by_cases hk : k = i
      · rw [hk]; exact hm
      · exact h3 k (by omega) hk2

theorem searchPat_spec (p : LinkPattern) (text : Str) (j len : Nat)
    (h : searchPat p text = some (j, len)) :
    matchLenAt p text j = some len ∧ ∀ k < j, matchLenAt p text k = none := by
  obtain ⟨_, h2, h3⟩ := searchAux_spec p text (text.length + 1) 0 j len h
  exact ⟨h2, fun k hk => h3 k (Nat.zero_le k) hk⟩

theorem tryPatterns_some_spec : ∀ (ps : List LinkPattern) (text r : Str),
    tryPatterns ps text = some r →
    ∃ ps₁ p ps₂ i len, ps = ps₁ ++ p :: ps₂ ∧
      (∀ q ∈ ps₁, searchPat q text = none) ∧
      searchPat p text = some (i, len) ∧ r = spliceLink p text i len := by
  intro ps
  induction ps with
  | nil => intro text r h; exact absurd h (by simp [tryPatterns])
  | cons p ps ih =>
    intro text r h
    rw [tryPatterns] at h
    cases ha : applyPat p text with
    | some r0 =>
      rw [ha] at h
      injection h with h1
      unfold applyPat at ha
      rw [Option.map_eq_some'] at ha
      obtain ⟨il, hs, hr0⟩ := ha
      refine ⟨[], p, ps, il.1, il.2, rfl, by simp, ?_, by rw [← h1, ← hr0]⟩
      rw [hs]
    | none =>
      rw [ha] at h
      obtain ⟨ps₁, q, ps₂, i, len, he, hnone, hs, hr⟩ := ih text r h
      have hpn : searchPat p text = none := by
        unfold applyPat at ha
        cases hs2 : searchPat p text with
        | none => rfl
        | some il => rw [hs2] at ha; exact absurd ha (by simp)
      refine ⟨p :: ps₁, q, ps₂, i, len, by rw [he]; rfl, ?_, hs, hr⟩
      intro q' hq'
      rcases List.mem_cons.mp hq' with hq1 | hq2
      · rw [hq1]; exact hpn
      · exact hnone q' hq2

theorem clustersGet_patterns (cname : Str) (cl : Cluster)
    (hg : clustersGet cname = some cl) :
    ∀ q ∈ cl.patterns, listStarts "/fractional-jobs".toList q.url = true := by
  unfold clustersGet at hg
  cases hf : KEYWORD_CLUSTERS.find? (fun kv => decide (kv.1 = cname)) with
  | none => rw [hf] at hg; exact absurd hg (by simp)
  | some kv =>
    rw [hf] at hg
    injection hg with hkv
    have hkv' : kv.2 = cl := hkv
    intro q hq
    exact all_pattern_urls kv (List.mem_of_find?_eq_some hf) q (by rw [hkv']; exact hq)

theorem clustersGet_mem (cname : Str) (cl : Cluster)
    (hg : clustersGet cname = some cl) :
    ∃ kv ∈ KEYWORD_CLUSTERS, kv.2 = cl := by
  unfold clustersGet at hg
  cases hf : KEYWORD_CLUSTERS.find? (fun kv => decide (kv.1 = cname)) with
  | none => rw [hf] at hg; exact absurd hg (by simp)
  | some kv =>
    rw [hf] at hg
    injection hg with hkv
    exact ⟨kv, List.mem_of_find?_eq_some hf, hkv⟩

theorem applyClusters_len : ∀ (order : List Str) (res : Str) (n : Nat) (used : List Str),
    n = used.length →
    (applyClusters order res n used).2.1 = (applyClusters order res n used).2.2.length := by
  intro order
  induction order with
  | nil => intro res n used h; simpa [applyClusters] using h
  | cons cname rest ih =>
    intro res n used h
    rw [applyClusters]
    by_cases h3 : 3 ≤ n
    · rw [if_pos h3]; exact h
    · rw [if_neg h3]
      cases hg : clustersGet cname with
      | none => simp only [hg]; exact ih res n used h
      | some cl =>
        simp only [hg]
        cases ht : tryPatterns cl.patterns res with
        | none => simp only [ht]; exact ih res n used h
        | some r =>
          simp only [ht]
          exact ih r (n + 1) (used ++ [cname]) (by simp [h])

theorem applyClusters_le3 : ∀ (order : List Str) (res : Str) (n : Nat) (used : List Str),
    n ≤ 3 → (applyClusters order res n used).2.1 ≤ 3 := by
  intro order
  induction order with
  | nil => intro res n used h; simpa [applyClusters] using h
  | cons cname rest ih =>
    intro res n used h
    rw [applyClusters]
    by_cases h3 : 3 ≤ n
    · rw [if_pos h3]; exact h
    · rw [if_neg h3]
      cases hg : clustersGet cname with
      | none => simp only [hg]; exact ih res n used h
      | some cl =>
        simp only [hg]
        cases ht : tryPatterns cl.patterns res with
        | none => simp only [ht]; exact ih res n used h
        | some r =>
          simp only [ht]
          exact ih r (n + 1) (used ++ [cname]) (by omega)

theorem applyClusters_nodup : ∀ (order : List Str) (res : Str) (n : Nat) (used : List Str),
    order.Nodup → used.Nodup → (∀ c ∈ order, c ∉ used) →
    (applyClusters order res n used).2.2.Nodup := by
  intro order
  induction order with
  | nil => intro res n used _ hu _; simpa [applyClusters] using hu
  | cons cname rest ih =>
    intro res n used ho hu hd
    rw [List.nodup_cons] at ho
    obtain ⟨hcr, hrest⟩ := ho
    rw [applyClusters]
    by_cases h3 : 3 ≤ n
    · rw [if_pos h3]; exact hu
    · rw [if_neg h3]
      cases hg : clustersGet cname with
      | none =>
        simp only [hg]
        exact ih res n used hrest hu (fun c hc => hd c (List.mem_cons_of_mem _ hc))
      | some cl =>
        simp only [hg]
        cases ht : tryPatterns cl.patterns res with
        | none =>
          simp only [ht]
          exact ih res n used hrest hu (fun c hc => hd c (List.mem_cons_of_mem _ hc))
        | some r =>
          simp only [ht]
          apply ih r (n + 1) (used ++ [cname]) hrest
          · rw [List.nodup_append]
            refine ⟨hu, by simp, ?_⟩
            intro a ha hb
            rw [List.mem_singleton] at hb
            exact hd cname (List.mem_cons_self _ _) (hb ▸ ha)
          · intro c hc
            rw [List.mem_append, List.mem_singleton]
            rintro (hc1 | hc2)
            · exact hd c (List.mem_cons_of_mem _ hc) hc1
            · exact hcr (hc2 ▸ hc)

theorem applyClusters_marker : ∀ (order : List Str) (res : Str) (n : Nat) (used : List Str),
    (1 ≤ n → isSubstr LINK_MARK res = true) →
    1 ≤ (applyClusters order res n used).2.1 →
    isSubstr LINK_MARK (applyClusters order res n used).1 = true := by
  intro order
  induction order with
  | nil => intro res n used hinv h1; exact hinv h1
  | cons cname rest ih =>
    intro res n used hinv h1
    rw [applyClusters] at h1 ⊢
    by_cases h3 : 3 ≤ n
    · rw [if_pos h3] at h1 ⊢
      exact hinv h1
    · rw [if_neg h3] at h1 ⊢
      cases hg : clustersGet cname with
      | none =>
        simp only [hg] at h1 ⊢
        exact ih res n used hinv h1
      | some cl =>
        simp only [hg] at h1 ⊢
        cases ht : tryPatterns cl.patterns res with
        | none =>
          simp only [ht] at h1 ⊢
          exact ih res n used hinv h1
        | some r =>
          simp only [ht] at h1 ⊢
          apply ih r (n + 1) (used ++ [cname]) _ h1
          intro _
          exact tryPatterns_marker cl.patterns res r
            (clustersGet_patterns cname cl hg) ht

theorem applyClusters_noop : ∀ (order : List Str) (res : Str) (n : Nat) (used : List Str),
    (∀ kv ∈ KEYWORD_CLUSTERS, tryPatterns kv.2.patterns res = none) →
    applyClusters order res n used = (res, n, used) := by
  intro order
  induction order with
  | nil => intro res n used _; rfl
  | cons cname rest ih =>
    intro res n used hall
    rw [applyClusters]
    by_cases h3 : 3 ≤ n
    · rw [if_pos h3]
    · rw [if_neg h3]
      cases hg : clustersGet cname with
      | none => simp only [hg]; exact ih res n used hall
      | some cl =>
        obtain ⟨kv, hkv, hcl⟩ := clustersGet_mem cname cl hg
        have ht : tryPatterns cl.patterns res = none := by
          rw [← hcl]; exact hall kv hkv
        simp only [hg, ht]
        exact ih res n used hall

theorem perm_insertSorted (c : BrandColor) :
    ∀ l : List BrandColor, List.Perm (insertSorted c l) (c :: l) := by
  intro l
  induction l with
  | nil => rfl
  | cons d ds ih =>
    rw [insertSorted]
    by_cases hlt : d.brightness < c.brightness
    · rw [if_pos hlt]
      exact (ih.cons d).trans (List.Perm.swap c d ds)
    · rw [if_neg hlt]

theorem mem_insertSorted (c x : BrandColor) (l : List BrandColor)
    (h : x ∈ insertSorted c l) : x = c ∨ x ∈ l := by
  have := (perm_insertSorted c l).mem_iff.mp h
  simpa [List.mem_cons] using this

theorem sorted_insertSorted (c : BrandColor) :
    ∀ l : List BrandColor,
      l.Sorted (fun a b => a.brightness ≤ b.brightness) →
      (insertSorted c l).Sorted (fun a b => a.brightness ≤ b.brightness) := by
  intro l
  induction l with
  | nil => intro _; simp [insertSorted]
  | cons d ds ih =>
    intro hs
    rw [List.sorted_cons] at hs
    obtain ⟨hd, hds⟩ := hs
    rw [insertSorted]
    by_cases hlt : d.brightness < c.brightness
    · rw [if_pos hlt]
      rw [List.sorted_cons]
      refine ⟨?_, ih hds⟩
      intro x hx
      rcases mem_insertSorted c x ds hx with hx1 | hx2
      · rw [hx1]; omega
      · exact hd x hx2
    · rw [if_neg hlt]
      rw [List.sorted_cons]
      refine ⟨?_, ?_⟩
      · intro x hx
        rcases List.mem_cons.mp hx with hx1 | hx2
        · rw [hx1]; omega
        · have := hd x hx2; omega
      · rw [List.sorted_cons]
        exact ⟨hd, hds⟩

theorem sorted_sortColors (l : List BrandColor) :
    (sortColors l).Sorted (fun a b => a.brightness ≤ b.brightness) := by
  induction l with
  | nil => simp [sortColors]
  | cons c cs ih => exact sorted_insertSorted c (sortColors cs) ih

theorem setType_map_brightness : ∀ (l : List BrandColor) (i : Nat) (t : Str),
    (setType l i t).map (fun c => c.brightness) = l.map (fun c => c.brightness) := by
  intro l
  induction l with
  | nil => intro i t; rfl
  | cons c cs ih =>
    intro i t
    cases i with
    | zero => rfl
    | succ i => simp [setType, ih i t]

theorem setType_length : ∀ (l : List BrandColor) (i : Nat) (t : Str),
    (setType l i t).length = l.length := by
  intro l
  induction l with
  | nil => intro i t; rfl
  | cons c cs ih =>
    intro i t
    cases i with
    | zero => rfl
    | succ i => simp [setType, ih i t]

theorem setType_get?_same : ∀ (l : List BrandColor) (i : Nat) (t : Str),
    (setType l i t).get? i = (l.get? i).map (fun c => BrandColor.mk c.hex t c.brightness) := by
  intro l
  induction l with
  | nil => intro i t; cases i <;> rfl
  | cons c cs ih =>
    intro i t
    cases i with
    | zero => rfl
    | succ i => simpa [setType] using ih i t

theorem setType_get?_ne : ∀ (l : List BrandColor) (i j : Nat) (t : Str), i ≠ j →
    (setType l i t).get? j = l.get? j := by
  intro l
  induction l with
  | nil => intro i j t _; cases i <;> rfl
  | cons c cs ih =>
    intro i j t hij
    cases i with
    | zero =>
      cases j with
      | zero => exact absurd rfl hij
      | succ j => rfl
    | succ i =>
      cases j with
      | zero => rfl
      | succ j => simpa [setType] using ih i j t (by omega)

theorem overrideTypes_map_brightness (l : List BrandColor) :
    (overrideTypes l).map (fun c => c.brightness) = l.map (fun c => c.brightness) := by
  simp only [overrideTypes]
  by_cases h0 : l = []
  · rw [if_pos h0]
  · rw [if_neg h0]
    by_cases h1 : 1 < l.length
    · rw [if_pos h1]
      by_cases h2 : 2 < l.length
      · rw [if_pos h2, setType_map_brightness, setType_map_brightness,
          setType_map_brightness]
      · rw [if_neg h2, setType_map_brightness, setType_map_brightness]
    · rw [if_neg h1]
      by_cases h2 : 2 < l.length
      · omega
      · rw [if_neg h2, setType_map_brightness]

theorem overrideTypes_length (l : List BrandColor) :
    (overrideTypes l).length = l.length := by
  have := congrArg List.length (overrideTypes_map_brightness l)
  simpa using this

theorem overrideTypes_get?_0 (l : List BrandColor) (h0 : l ≠ []) :
    ((overrideTypes l).get? 0).map (fun c => c.type) = some "dark".toList := by
  simp only [overrideTypes]
  rw [if_neg h0]
  have hlen : 0 < l.length := List.length_pos.mpr h0
  have hbase : ((setType l 0 "dark".toList).get? 0).map (fun c => c.type)
      = some "dark".toList := by
    rw [setType_get?_same]
    cases hg : l.get? 0 with
    | none => rw [List.get?_eq_none] at hg; omega
    | some c => simp
  by_cases h1 : 1 < l.length
  · rw [if_pos h1]
    by_cases h2 : 2 < l.length
    · rw [if_pos h2]
      rw [setType_get?_ne _ _ _ _ (by omega), setType_get?_ne _ _ _ _ (by omega)]
      exact hbase
    · rw [if_neg h2]
      rw [setType_get?_ne _ _ _ _ (by omega)]
      exact hbase
  · rw [if_neg h1]
    by_cases h2 : 2 < l.length
    · omega
    · rw [if_neg h2]
      exact hbase

theorem overrideTypes_get?_last (l : List BrandColor) (h1 : 1 < l.length) :
    ((overrideTypes l).get? (l.length - 1)).map (fun c => c.type)
      = some "light".toList := by
  have h0 : l ≠ [] := by intro h; rw [h] at h1; simp at h1
  simp only [overrideTypes]
  rw [if_neg h0, if_pos h1]
  have hlast : ((setType (setType l 0 "dark".toList) (l.length - 1)
        "light".toList).get? (l.length - 1)).map (fun c => c.type)
      = some "light".toList := by
    rw [setType_get?_same]
    cases hg : (setType l 0 "dark".toList).get? (l.length - 1) with
    | none =>
      rw [List.get?_eq_none, setType_length] at hg
      omega
    | some c => simp
  by_cases h2 : 2 < l.length
  · rw [if_pos h2]
    rw [setType_get?_ne _ _ _ _ (by omega)]
    exact hlast
  · rw [if_neg h2]
    exact hlast

theorem overrideTypes_get?_1 (l : List BrandColor) (h2 : 2 < l.length) :
    ((overrideTypes l).get? 1).map (fun c => c.type) = some "accent".toList := by
  have h0 : l ≠ [] := by intro h; rw [h] at h2; simp at h2
  have h1 : 1 < l.length := by omega
  simp only [overrideTypes]
  rw [if_neg h0, if_pos h1, if_pos h2]
  rw [setType_get?_same]
  cases hg : (setType (setType l 0 "dark".toList) (l.length - 1)
      "light".toList).get? 1 with
  | none =>
    rw [List.get?_eq_none, setType_length, setType_length] at hg
    omega
  | some c => simp

theorem lookupKey_upsert_eq : ∀ (m : List (Str × Option Str)) (k : Str) (v : Option Str),
    lookupKey (upsert m k v) k = some v := by
  intro m
  induction m with
  | nil => intro k v; simp [upsert, lookupKey]
  | cons kv rest ih =>
    intro k v
    obtain ⟨k', v'⟩ := kv
    rw [upsert]
    by_cases hk : k' = k
    · rw [if_pos hk]
      simp [lookupKey]
    · rw [if_neg hk]
      rw [lookupKey, List.find?_cons_of_neg _ (by simp [hk])]
      exact ih k v

theorem lookupKey_upsert_ne : ∀ (m : List (Str × Option Str)) (k : Str) (v : Option Str)
    (k' : Str), k' ≠ k → lookupKey (upsert m k v) k' = lookupKey m k' := by
  intro m
  induction m with
  | nil =>
    intro k v k' hne
    show lookupKey [(k, v)] k' = lookupKey [] k'
    rw [lookupKey, List.find?_cons_of_neg _ (by simpa using Ne.symm hne)]
    rfl
  | cons kv rest ih =>
    intro k v k' hne
    obtain ⟨k'', v''⟩ := kv
    rw [upsert]
    by_cases hk : k'' = k
    · rw [if_pos hk]
      rw [lookupKey, lookupKey, List.find?_cons_of_neg _ (by simp [hk, Ne.symm hne]),
        List.find?_cons_of_neg _ (by simp [hk, Ne.symm hne])]
    · rw [if_neg hk]
      by_cases hk2 : k'' = k'
      · rw [lookupKey, lookupKey, List.find?_cons_of_pos _ (by simp [hk2]),
          List.find?_cons_of_pos _ (by simp [hk2])]
      · rw [lookupKey, lookupKey, List.find?_cons_of_neg _ (by simp [hk2]),
          List.find?_cons_of_neg _ (by simp [hk2])]
        exact ih k v k' hne

theorem logoLoop_no_svg_no_png : ∀ (formats : List BFFormat)
    (acc : List (Str × Option Str)) (key : Str),
    formats.find? (fun fm => decide (fm.format = some "svg".toList)) = none →
    formats.filter (fun fm => decide (fm.format = some "png".toList)) = [] →
    logoFormatsLoop acc key formats = acc := by
  intro formats
  induction formats with
  | nil => intro acc key _ _; rfl
  | cons fmt rest ih =>
    intro acc key hsvg hpng
    rw [List.find?_eq_none] at hsvg
    have hsv : ¬fmt.format = some "svg".toList := by
      have := hsvg fmt (List.mem_cons_self _ _)
      simpa using this
    rw [List.filter_cons] at hpng
    by_cases hpg : fmt.format = some "png".toList
    · rw [if_pos (by simpa using hpg)] at hpng
      exact absurd hpng (by simp)
    · rw [if_neg (by simpa using hpg)] at hpng
      rw [logoFormatsLoop, if_neg hsv, if_neg hpg]
      apply ih acc key _ hpng
      rw [List.find?_eq_none]
      exact fun x hx => hsvg x (List.mem_cons_of_mem _ hx)

theorem logoLoop_svg_first : ∀ (formats : List BFFormat)
    (acc : List (Str × Option Str)) (key : Str) (f : BFFormat),
    formats.find? (fun fm => decide (fm.format = some "svg".toList)) = some f →
    lookupKey (logoFormatsLoop acc key formats) key = some f.src := by
  intro formats
  induction formats with
  | nil => intro acc key f h; exact absurd h (by simp)
  | cons fmt rest ih =>
    intro acc key f hf
    by_cases hsv : fmt.format = some "svg".toList
    · rw [List.find?_cons_of_pos _ (by simpa using hsv)] at hf
      injection hf with hf1
      rw [logoFormatsLoop, if_pos hsv, ← hf1]
      exact lookupKey_upsert_eq acc key fmt.src
    · rw [List.find?_cons_of_neg _ (by simpa using hsv)] at hf
      rw [logoFormatsLoop, if_neg hsv]
      by_cases hpg : fmt.format = some "png".toList
      · rw [if_pos hpg]
        exact ih (upsert acc key fmt.src) key f hf
      · rw [if_neg hpg]
        exact ih acc key f hf

theorem logoLoop_png_last : ∀ (formats : List BFFormat)
    (acc : List (Str × Option Str)) (key : Str) (f : BFFormat),
    formats.find? (fun fm => decide (fm.format = some "svg".toList)) = none →
    (formats.filter (fun fm => decide (fm.format = some "png".toList))).getLast?
      = some f →
    lookupKey (logoFormatsLoop acc key formats) key = some f.src := by
  intro formats
  induction formats with
  | nil => intro acc key f _ h; exact absurd h (by simp)
  | cons fmt rest ih =>
    intro acc key f hsvg hlast
    rw [List.find?_eq_none] at hsvg
    have hsv : ¬fmt.format = some "svg".toList := by
      have := hsvg fmt (List.mem_cons_self _ _)
      simpa using this
    have hsvrest : rest.find? (fun fm => decide (fm.format = some "svg".toList)) = none := by
      rw [List.find?_eq_none]
      exact fun x hx => hsvg x (List.mem_cons_of_mem _ hx)
    rw [List.filter_cons] at hlast
    by_cases hpg : fmt.format = some "png".toList
    · rw [if_pos (by simpa using hpg)] at hlast
      rw [logoFormatsLoop, if_neg hsv, if_pos hpg]
      cases hfr : rest.filter (fun fm => decide (fm.format = some "png".toList)) with
      | nil =>
        rw [hfr] at hlast
        have hf : fmt = f := by simpa using hlast
        rw [logoLoop_no_svg_no_png rest (upsert acc key fmt.src) key hsvrest hfr, ← hf]
        exact lookupKey_upsert_eq acc key fmt.src
      | cons g gs =>
        rw [hfr, List.getLast?_cons_cons, ← hfr] at hlast
        exact ih (upsert acc key fmt.src) key f hsvrest hlast
    · rw [if_neg (by simpa using hpg)] at hlast
      rw [logoFormatsLoop, if_neg hsv, if_neg hpg]
      exact ih acc key f hsvrest hlast

theorem pyRound2Num_le_100 : ∀ k, k < 7 → pyRound2Num k 6 ≤ 100 := by decide

theorem quality_score_bounds (k : Nat) (hk : k ≤ 6) :
    0 ≤ ((pyRound2Num k 6 : ℚ)) / 100 ∧ ((pyRound2Num k 6 : ℚ)) / 100 ≤ 1 := by
  constructor
  · positivity
  · rw [div_le_one (by norm_num)]
    have h100 : pyRound2Num k 6 ≤ 100 := pyRound2Num_le_100 k (by omega)
    exact_mod_cast h100

theorem perm_two {α : Type} [DecidableEq α] {p q : α} {l : List α}
    (h : List.Perm l [p, q]) : l = [p, q] ∨ l = [q, p] := by
  have hlen : l.length = 2 := h.length_eq
  cases l with
  | nil => simp at hlen
  | cons y l1 =>
    cases l1 with
    | nil => simp at hlen
    | cons z l2 =>
      cases l2 with
      | cons w l3 => simp at hlen
      | nil =>
        have hy : y ∈ [p, q] := h.mem_iff.mp (by simp)
        rw [List.mem_cons, List.mem_singleton] at hy
        rcases hy with rfl | rfl
        · have hz : [z] = [q] := List.perm_singleton.mp h.cons_inv
          injection hz with hz1
          rw [hz1]
          exact Or.inl rfl
        · have ht := (List.cons_perm_iff_perm_erase.mp h).2
          by_cases hpq : p = y
          · rw [← hpq] at ht ⊢
            have herase : ([p, p] : List α).erase p = [p] := by
              simp [List.erase_cons]
            rw [herase] at ht
            have hz : [z] = [p] := List.perm_singleton.mp ht
            injection hz with hz1
            rw [hz1]
            exact Or.inl rfl
          · have herase : ([p, y] : List α).erase y = [p] := by
              simp [List.erase_cons, hpq]
            rw [herase] at ht
            have hz : [z] = [p] := List.perm_singleton.mp ht
            injection hz with hz1
            rw [hz1]
            exact Or.inr rfl

theorem perm_three_distinct {α : Type} [DecidableEq α] {a b c : α} {l : List α}
    (hab : a ≠ b) (hac : a ≠ c) (hbc : b ≠ c)
    (h : List.Perm l [a, b, c]) :
    l = [a, b, c] ∨ l = [a, c, b] ∨ l = [b, a, c] ∨ l = [b, c, a] ∨
    l = [c, a, b] ∨ l = [c, b, a] := by
  have hlen : l.length = 3 := h.length_eq
  cases l with
  | nil => simp at hlen
  | cons x l1 =>
    cases l1 with
    | nil => simp at hlen
    | cons y l2 =>
      cases l2 with
      | nil => simp at hlen
      | cons z l3 =>
        cases l3 with
        | cons w l4 => simp at hlen
        | nil =>
          have hx : x ∈ [a, b, c] := h.mem_iff.mp (by simp)
          rw [List.mem_cons, List.mem_cons, List.mem_singleton] at hx
          rcases hx with hx | hx | hx
          · rw [hx] at h ⊢
            have ht : List.Perm [y, z] [b, c] := h.cons_inv
            rcases perm_two ht with h2 | h2 <;>
              injection h2 with hy hz <;> injection hz with hz _ <;> rw [hy, hz]
            · exact Or.inl rfl
            · exact Or.inr (Or.inl rfl)
          · rw [hx] at h ⊢
            have ht := (List.cons_perm_iff_perm_erase.mp h).2
            have herase : ([a, b, c] : List α).erase b = [a, c] := by
              simp [List.erase_cons, hab]
            rw [herase] at ht
            rcases perm_two ht with h2 | h2 <;>
              injection h2 with hy hz <;> injection hz with hz _ <;> rw [hy, hz]
            · exact Or.inr (Or.inr (Or.inl rfl))
            · exact Or.inr (Or.inr (Or.inr (Or.inl rfl)))
          · rw [hx] at h ⊢
            have ht := (List.cons_perm_iff_perm_erase.mp h).2
            have herase : ([a, b, c] : List α).erase c = [a, b] := by
              simp [List.erase_cons, hac, hbc]
            rw [herase] at ht
            rcases perm_two ht with h2 | h2 <;>
              injection h2 with hy hz <;> injection hz with hz _ <;> rw [hy, hz]
            · exact Or.inr (Or.inr (Or.inr (Or.inr (Or.inl rfl))))
            · exact Or.inr (Or.inr (Or.inr (Or.inr (Or.inr rfl))))

/-! Claim theorems. -/

/-- C1: for every text and role hint, if the text already contains a link
into the target namespace (the substring `](/fractional-jobs`), then
`add_links_to_description` returns the text unchanged with zero links added
and no clusters used; consequently applying the function to an output that
contains at least one link (`links_added ≥ 1`) adds zero further links
(idempotence). -/
theorem C1_already_linked_short_circuit :
    (∀ (text : Str) (hint : Option Str), isSubstr LINK_MARK text = true →
        add_links_to_description text hint = (text, 0, [])) ∧
    (∀ (text : Str) (hint hint2 : Option Str),
        1 ≤ (add_links_to_description text hint).2.1 →
        add_links_to_description (add_links_to_description text hint).1 hint2
          = ((add_links_to_description text hint).1, 0, [])) := by
  have part1 : ∀ (text : Str) (hint : Option Str), isSubstr LINK_MARK text = true →
      add_links_to_description text hint = (text, 0, []) := by
    intro text hint hm
    unfold add_links_to_description
    by_cases h0 : text = []
    · rw [if_pos h0]
    · rw [if_neg h0, if_pos hm]
  refine ⟨part1, ?_⟩
  intro text hint hint2 h1
  have hm : isSubstr LINK_MARK (add_links_to_description text hint).1 = true := by
    unfold add_links_to_description at h1 ⊢
    by_cases h0 : text = []
    · rw [if_pos h0] at h1
      simp at h1
    · rw [if_neg h0] at h1 ⊢
      by_cases hmk : isSubstr LINK_MARK text = true
      · rw [if_pos hmk] at h1
        simp at h1
      · rw [if_neg hmk] at h1 ⊢
        exact applyClusters_marker _ text 0 []
          (fun hh => absurd hh (by omega)) h1
  exact part1 _ hint2 hm

/-- Witness for C1 at concrete inputs: a text that already contains a
target-namespace link is returned unchanged, and re-applying the transform
to a freshly linked output adds nothing. -/
theorem C1_witness :
    add_links_to_description "see [a](/fractional-jobs) x".toList none
      = ("see [a](/fractional-jobs) x".toList, 0, []) ∧
    add_links_to_description
        (add_links_to_description "a fractional CFO".toList none).1 (some "CFO".toList)
      = ((add_links_to_description "a fractional CFO".toList none).1, 0, []) :=
  ⟨C1_already_linked_short_circuit.1 _ none (by decide),
   C1_already_linked_short_circuit.2 _ none _ (by decide)⟩

/-- C2: for every input text and role hint, the result satisfies
`links_added = clusters_used.length`, `links_added ≤ 3` (the `max_links`
budget), and `clusters_used` contains no duplicate cluster names. -/
theorem C2_result_invariants (text : Str) (hint : Option Str) :
    (add_links_to_description text hint).2.1
      = (add_links_to_description text hint).2.2.length ∧
    (add_links_to_description text hint).2.1 ≤ 3 ∧
    (add_links_to_description text hint).2.2.Nodup := by
  unfold add_links_to_description
  by_cases h0 : text = []
  · rw [if_pos h0]
    exact ⟨rfl, by simp, List.nodup_nil⟩
  · rw [if_neg h0]
    by_cases hm : isSubstr LINK_MARK text = true
    · rw [if_pos hm]
      exact ⟨rfl, by simp, List.nodup_nil⟩
    · rw [if_neg hm]
      exact ⟨applyClusters_len _ text 0 [] rfl,
        applyClusters_le3 _ text 0 [] (by omega),
        applyClusters_nodup _ text 0 [] (order_nodup hint) List.nodup_nil (by simp)⟩

/-- C3: the cluster evaluation order is the role-hint cluster (exact
cluster-name match on the upper-cased hint, else the CFO/finance, CMO/market,
CTO/tech, COO/operation keyword fallback), then `general`, then the
remaining role clusters in the fixed order CFO, CMO, CTO, COO skipping any
already placed (`determineClusterOrder` agrees with the spec-modelled
`specClusterOrder` everywhere); in particular with role hint `CFO` and a
text containing a CFO-cluster phrase and a general-cluster phrase, `CFO`
precedes `general` in `clusters_used`. -/
theorem C3_cluster_order :
    (∀ rh : Option Str, determineClusterOrder rh = specClusterOrder rh) ∧
    (add_links_to_description
        "We need a fractional CFO for this fractional role.".toList
        (some "CFO".toList)).2.2 = ["CFO".toList, "general".toList] :=
  ⟨order_spec_eq, by decide⟩

/-- C8: when no cluster pattern matches anywhere in the text the function is
a no-op returning zero links; and whenever a cluster contributes, it applies
the first matching pattern of its priority list to the leftmost match
position only (one replacement, hence at most one link per cluster). -/
theorem C8_pattern_application :
    (∀ (text : Str) (hint : Option Str),
        (∀ kv ∈ KEYWORD_CLUSTERS, ∀ p ∈ kv.2.patterns, searchPat p text = none) →
        add_links_to_description text hint = (text, 0, [])) ∧
    (∀ (ps : List LinkPattern) (text r : Str), tryPatterns ps text = some r →
        ∃ ps₁ p ps₂ i len, ps = ps₁ ++ p :: ps₂ ∧
          (∀ q ∈ ps₁, searchPat q text = none) ∧
          searchPat p text = some (i, len) ∧ matchLenAt p text i = some len ∧
          (∀ k < i, matchLenAt p text k = none) ∧ r = spliceLink p text i len) := by
  constructor
  · intro text hint hall
    unfold add_links_to_description
    by_cases h0 : text = []
    · rw [if_pos h0]
    · rw [if_neg h0]
      by_cases hm : isSubstr LINK_MARK text = true
      · rw [if_pos hm]
      · rw [if_neg hm]
        exact applyClusters_noop _ text 0 []
          (fun kv hkv => tryPatterns_eq_none _ _ (fun p hp => hall kv hkv p hp))
  · intro ps text r h
    obtain ⟨ps₁, p, ps₂, i, len, he, hnone, hs, hr⟩ := tryPatterns_some_spec ps text r h
    obtain ⟨hmatch, hleast⟩ := searchPat_spec p text i len hs
    exact ⟨ps₁, p, ps₂, i, len, he, hnone, hs, hmatch, hleast, hr⟩

/-- Witness for C8 at concrete inputs: a text matched by no pattern is
returned unchanged, and a one-pattern cluster replaces exactly the leftmost
occurrence. -/
theorem C8_witness :
    add_links_to_description "abc".toList none = ("abc".toList, 0, []) ∧
    (∃ ps₁ p ps₂ i len,
        [pOptS "fractional role" "/fractional-jobs"] = ps₁ ++ p :: ps₂ ∧
        (∀ q ∈ ps₁, searchPat q "a fractional role".toList = none) ∧
        searchPat p "a fractional role".toList = some (i, len) ∧
        matchLenAt p "a fractional role".toList i = some len ∧
        (∀ k < i, matchLenAt p "a fractional role".toList k = none) ∧
        "a [fractional role](/fractional-jobs)".toList
          = spliceLink p "a fractional role".toList i len) :=
  ⟨C8_pattern_application.1 _ none (by decide),
   C8_pattern_application.2 _ _ _ (by decide)⟩

/-- C9: for the empty (falsy) input text the function returns the text
itself with zero links and no clusters, for every role hint. -/
theorem C9_empty_text (role_category : Option Str) :
    add_links_to_description [] role_category = ([], 0, []) := rfl

/-- C10: the role hint is treated case-insensitively — two hints equal
after upper-casing produce identical results on every text. -/
theorem C10_hint_case_insensitive (text : Str) (s1 s2 : Str)
    (h : upperStr s1 = upperStr s2) :
    add_links_to_description text (some s1) = add_links_to_description text (some s2) := by
  have hlen : s1.length = s2.length := by
    have h2 := congrArg List.length h
    simpa [upperStr] using h2
  have hord : determineClusterOrder (some s1) = determineClusterOrder (some s2) := by
    simp only [determineClusterOrder]
    by_cases h1 : s1 = []
    · have h2 : s2 = [] := by
        rw [h1] at hlen
        exact List.length_eq_zero.mp hlen.symm
      rw [if_pos h1, if_pos h2]
    · have h2 : s2 ≠ [] := by
        intro hh
        rw [hh] at hlen
        exact h1 (List.length_eq_zero.mp hlen)
      rw [if_neg h1, if_neg h2, h]
  unfold add_links_to_description
  rw [hord]

/-- Witness for C10 at concrete inputs: hints `cfo` and `CFO` give the same
result. -/
theorem C10_witness :
    add_links_to_description "abc".toList (some "cfo".toList)
      = add_links_to_description "abc".toList (some "CFO".toList) :=
  C10_hint_case_insensitive _ _ _ (by decide)

/-- C4 counterexample: the claim says `calculate_brightness` rounds
`(299·R + 587·G + 114·B) / 1000` to the nearest integer, but on `#000005`
the weighted sum is 570, the spec's rounding gives 1, and the code returns
0 (it truncates). -/
theorem C4_counterexample :
    calculate_brightness "#000005".toList = some 0 ∧
    specRoundNat (299 * 0 + 587 * 0 + 114 * 5) 1000 = 1 ∧ (0 : Nat) ≠ 1 := by
  decide

/-- C4 (amended): for every well-formed 6-hex-digit color string,
`calculate_brightness` returns the weighted sum `299·R + 587·G + 114·B`
divided by 1000 rounded DOWN (Python `int()` truncation of the nonnegative
quotient), not rounded to nearest; in particular `#000000` gives 0 and
`#FFFFFF` gives 255. -/
theorem C4_brightness_floor :
    (∀ (d1 d2 d3 d4 d5 d6 : Char) (v1 v2 v3 v4 v5 v6 : Nat),
        hexDigitVal d1 = some v1 → hexDigitVal d2 = some v2 →
        hexDigitVal d3 = some v3 → hexDigitVal d4 = some v4 →
        hexDigitVal d5 = some v5 → hexDigitVal d6 = some v6 →
        calculate_brightness ('#' :: [d1, d2, d3, d4, d5, d6])
          = some (((16 * v1 + v2) * 299 + (16 * v3 + v4) * 587
              + (16 * v5 + v6) * 114) / 1000)) ∧
    calculate_brightness "#000000".toList = some 0 ∧
    calculate_brightness "#FFFFFF".toList = some 255 := by
  refine ⟨?_, by decide, by decide⟩
  intro d1 d2 d3 d4 d5 d6 v1 v2 v3 v4 v5 v6 h1 h2 h3 h4 h5 h6
  have hne : d1 ≠ '#' := by
    intro hh
    have hz : hexDigitVal '#' = none := rfl
    rw [hh, hz] at h1
    exact Option.noConfusion h1
  simp only [calculate_brightness]
  have hdrop : ('#' :: [d1, d2, d3, d4, d5, d6]).dropWhile (fun c => decide (c = '#'))
      = [d1, d2, d3, d4, d5, d6] := by
    rw [List.dropWhile_cons, if_pos (by decide), List.dropWhile_cons,
      if_neg (by simp [hne])]
  rw [hdrop]
  have hs1 : sliceStr [d1, d2, d3, d4, d5, d6] 0 2 = [d1, d2] := rfl
  have hs2 : sliceStr [d1, d2, d3, d4, d5, d6] 2 4 = [d3, d4] := rfl
  have hs3 : sliceStr [d1, d2, d3, d4, d5, d6] 4 6 = [d5, d6] := rfl
  rw [hs1, hs2, hs3]
  have hp1 : parseHex [d1, d2] = some (16 * v1 + v2) := by
    simp only [parseHex, parseHexLoop, h1, h2]
    congr 1
    omega
  have hp2 : parseHex [d3, d4] = some (16 * v3 + v4) := by
    simp only [parseHex, parseHexLoop, h3, h4]
    congr 1
    omega
  have hp3 : parseHex [d5, d6] = some (16 * v5 + v6) := by
    simp only [parseHex, parseHexLoop, h5, h6]
    congr 1
    omega
  simp only [hp1, hp2, hp3]

/-- Witness for C4 at a concrete well-formed hex string. -/
theorem C4_witness :
    calculate_brightness ('#' :: ['1', 'a', '2', 'B', '3', 'c'])
      = some (((16 * 1 + 10) * 299 + (16 * 2 + 11) * 587
          + (16 * 3 + 12) * 114) / 1000) :=
  C4_brightness_floor.1 '1' 'a' '2' 'B' '3' 'c' 1 10 2 11 3 12
    (by decide) (by decide) (by decide) (by decide) (by decide) (by decide)

/-- C5 counterexample: the claim says a single-color list receives no
positional override, but the code forces index 0 of any nonempty list to
`dark`: a lone `#FFFFFF` (brightness 255, hint-based type `light`) comes
back typed `dark`. -/
theorem C5_counterexample :
    normalizeColors [RawColor.mk (some "#FFFFFF".toList) (some "".toList)]
      = some [BrandColor.mk "#FFFFFF".toList "dark".toList 255] ∧
    infer_color_type "".toList 255 = "light".toList := by
  decide

/-- C5 (amended): after per-entry brightness computation the color list is
sorted by brightness ascending and roles are overridden positionally —
index 0 of any NONEMPTY list (including a single-color list) is forced to
`dark`, the last index to `light` when the length exceeds 1, index 1 to
`accent` when the length exceeds 2 — overriding the hint-based inference;
only the empty list receives no override.  For three entries of brightness
10, 130, 250 in any input order the darkest ends `dark`, the middle
`accent`, the lightest `light`, regardless of name hints. -/
theorem C5_color_normalization :
    (∀ (raw : List RawColor) (cs : List BrandColor), normalizeColors raw = some cs →
        List.Chain' (fun a b => a.brightness ≤ b.brightness) cs ∧
        (cs ≠ [] → (cs.map (fun c => c.type)).get? 0 = some "dark".toList) ∧
        (1 < cs.length →
          (cs.map (fun c => c.type)).get? (cs.length - 1) = some "light".toList) ∧
        (2 < cs.length → (cs.map (fun c => c.type)).get? 1 = some "accent".toList)) ∧
    (∀ l : List RawColor,
        List.Perm l
          [RawColor.mk (some "#0A0A0A".toList) (some "light".toList),
           RawColor.mk (some "#828282".toList) (some "primary".toList),
           RawColor.mk (some "#FAFAFA".toList) (some "dark".toList)] →
        (normalizeColors l).map (fun cs => cs.map (fun c => c.type))
          = some ["dark".toList, "accent".toList, "light".toList]) := by
  constructor
  · intro raw cs h
    unfold normalizeColors at h
    cases hmap : raw.mapM normColor with
    | none => rw [hmap] at h; exact absurd h (by simp)
    | some base =>
      rw [hmap] at h
      injection h with h1
      refine ⟨?_, ?_, ?_, ?_⟩
      · rw [← h1]
        have hchain : List.Chain' (fun a b : BrandColor => a.brightness ≤ b.brightness)
            (sortColors base) :=
          List.Pairwise.chain' (sorted_sortColors base)
        have hx : List.Chain' (fun a b : Nat => a ≤ b)
            ((overrideTypes (sortColors base)).map (fun c => c.brightness)) := by
          rw [overrideTypes_map_brightness, List.chain'_map]
          exact hchain
        rw [List.chain'_map] at hx
        exact hx
      · intro hne
        rw [← h1] at hne ⊢
        rw [List.get?_map]
        exact overrideTypes_get?_0 (sortColors base)
          (by intro hh; exact hne (by rw [overrideTypes, if_pos hh, hh]))
      · intro hlen
        rw [← h1] at hlen ⊢
        rw [List.get?_map]
        rw [overrideTypes_length] at hlen
        have := overrideTypes_get?_last (sortColors base) hlen
        rw [overrideTypes_length]
        exact this
      · intro hlen
        rw [← h1] at hlen ⊢
        rw [List.get?_map]
        rw [overrideTypes_length] at hlen
        exact overrideTypes_get?_1 (sortColors base) hlen
  · intro l hperm
    rcases perm_three_distinct (by decide) (by decide) (by decide) hperm with
      rfl | rfl | rfl | rfl | rfl | rfl <;> decide

/-- Witness for C5 at concrete inputs: a normalized three-color list has its
head typed dark, and a shuffled input yields dark/accent/light. -/
theorem C5_witness :
    (([BrandColor.mk "#0A0A0A".toList "dark".toList 10,
       BrandColor.mk "#828282".toList "accent".toList 130,
       BrandColor.mk "#FAFAFA".toList "light".toList 250].map
        (fun c => c.type)).get? 0 = some "dark".toList) ∧
    (normalizeColors
        [RawColor.mk (some "#FAFAFA".toList) (some "dark".toList),
         RawColor.mk (some "#0A0A0A".toList) (some "light".toList),
         RawColor.mk (some "#828282".toList) (some "primary".toList)]).map
      (fun cs => cs.map (fun c => c.type))
      = some ["dark".toList, "accent".toList, "light".toList] :=
  ⟨(C5_color_normalization.1
      [RawColor.mk (some "#0A0A0A".toList) (some "x".toList),
       RawColor.mk (some "#828282".toList) (some "primary".toList),
       RawColor.mk (some "#FAFAFA".toList) (some "y".toList)]
      [BrandColor.mk "#0A0A0A".toList "dark".toList 10,
       BrandColor.mk "#828282".toList "accent".toList 130,
       BrandColor.mk "#FAFAFA".toList "light".toList 250]
      (by decide)).2.1 (by decide),
   C5_color_normalization.2 _ (by decide)⟩

/-- C6: for the provider without a native score (Brand.dev), the quality
score is the count of non-empty items among the six-item checklist (colors,
logos, banners, description, city, industries) divided by 6 and rounded to
2 decimals, hence always in the interval from 0 to 1; for the provider with
an explicit score (Brandfetch), the provider's `qualityScore` is passed
through unchanged. -/
theorem C6_quality_score :
    (∀ (brand : BrandDevBrand) (e : BrandDevExtract),
        extract_brand_data_branddev brand = some e →
        e.quality_score
          = ((pyRound2Num ((qualityFactors e.colors e.logos e.banners
              e.description e.city e.industries).count true) 6 : ℚ)) / 100 ∧
        0 ≤ e.quality_score ∧ e.quality_score ≤ 1) ∧
    (∀ r : BFResponse, (extract_brand_data_brandfetch r).quality_score
        = r.qualityScore) := by
  constructor
  · intro brand e h
    simp only [extract_brand_data_branddev] at h
    cases hn : normalizeColors brand.colors with
    | none => rw [hn] at h; exact absurd h (by simp)
    | some colors =>
      rw [hn] at h
      injection h with h1
      have hk : (qualityFactors e.colors e.logos e.banners e.description
          e.city e.industries).count true ≤ 6 := by
        have hle := List.count_le_length true (qualityFactors e.colors e.logos
          e.banners e.description e.city e.industries)
        simpa [qualityFactors] using hle
      have hq : e.quality_score
          = ((pyRound2Num ((qualityFactors e.colors e.logos e.banners
              e.description e.city e.industries).count true) 6 : ℚ)) / 100 := by
        rw [← h1]
      refine ⟨hq, ?_, ?_⟩
      · rw [hq]
        exact (quality_score_bounds _ hk).1
      · rw [hq]
        exact (quality_score_bounds _ hk).2
  · intro r
    rfl

/-- Witness for C6 at concrete inputs: an empty Brand.dev brand extracts
with a quality score inside the bounds, and a Brandfetch response with an
explicit score keeps it. -/
theorem C6_witness :
    (∃ e, extract_brand_data_branddev (BrandDevBrand.mk [] [] [] none none none [])
        = some e ∧ 0 ≤ e.quality_score ∧ e.quality_score ≤ 1) ∧
    (extract_brand_data_brandfetch
        (BFResponse.mk [] [] [] none (BFCompany.mk none none [])
          (some ((87 : ℚ) / 100)))).quality_score = some ((87 : ℚ) / 100) :=
  ⟨⟨BrandDevExtract.mk [] none none [] [] none none none none none none []
      ((pyRound2Num 0 6 : ℚ) / 100), rfl,
    (C6_quality_score.1 (BrandDevBrand.mk [] [] [] none none none [])
      (BrandDevExtract.mk [] none none [] [] none none none none none none []
        ((pyRound2Num 0 6 : ℚ) / 100)) rfl).2.1,
    (C6_quality_score.1 (BrandDevBrand.mk [] [] [] none none none [])
      (BrandDevExtract.mk [] none none [] [] none none none none none none []
        ((pyRound2Num 0 6 : ℚ) / 100)) rfl).2.2⟩,
   C6_quality_score.2 _⟩

/-- C7 counterexample: the claim says that with no vector format the FIRST
raster (PNG) URL is retained, but the Brandfetch formats loop keeps
overwriting, so the LAST PNG wins: with formats `[png a.png, png b.png]` the
stored URL is `b.png`, not `a.png`. -/
theorem C7_counterexample :
    brandfetchLogos [BFLogo.mk (some "logo".toList) (some "light".toList)
        [BFFormat.mk (some "png".toList) (some "a.png".toList),
         BFFormat.mk (some "png".toList) (some "b.png".toList)]]
      = [("logo_light".toList, some "b.png".toList)] ∧
    "b.png".toList ≠ "a.png".toList := by
  decide

/-- C7 (amended): per logo slot, the SVG format's URL is retained when any
SVG is present (the first one); otherwise the LAST raster (PNG) format
encountered in the format list is retained (each PNG overwrites the
previous); a slot with neither leaves the dict untouched; one URL is kept
per key, a later write to the same key overwriting the earlier one and
leaving other keys unchanged. -/
theorem C7_logo_format_selection :
    (∀ (acc : List (Str × Option Str)) (key : Str) (formats : List BFFormat)
        (f : BFFormat),
        formats.find? (fun fm => decide (fm.format = some "svg".toList)) = some f →
        lookupKey (logoFormatsLoop acc key formats) key = some f.src) ∧
    (∀ (acc : List (Str × Option Str)) (key : Str) (formats : List BFFormat)
        (f : BFFormat),
        formats.find? (fun fm => decide (fm.format = some "svg".toList)) = none →
        (formats.filter (fun fm => decide (fm.format = some "png".toList))).getLast?
          = some f →
        lookupKey (logoFormatsLoop acc key formats) key = some f.src) ∧
    (∀ (acc : List (Str × Option Str)) (key : Str) (formats : List BFFormat),
        formats.find? (fun fm => decide (fm.format = some "svg".toList)) = none →
        formats.filter (fun fm => decide (fm.format = some "png".toList)) = [] →
        logoFormatsLoop acc key formats = acc) ∧
    (∀ (m : List (Str × Option Str)) (k : Str) (v : Option Str),
        lookupKey (upsert m k v) k = some v) ∧
    (∀ (m : List (Str × Option Str)) (k : Str) (v : Option Str) (k' : Str),
        k' ≠ k → lookupKey (upsert m k v) k' = lookupKey m k') :=
  ⟨fun acc key formats f => logoLoop_svg_first formats acc key f,
   fun acc key formats f h1 h2 => logoLoop_png_last formats acc key f h1 h2,
   fun acc key formats h1 h2 => logoLoop_no_svg_no_png formats acc key h1 h2,
   lookupKey_upsert_eq, lookupKey_upsert_ne⟩

/-- Witness for C7 at concrete inputs: an SVG after a PNG wins the slot, and
with two PNGs the later one wins. -/
theorem C7_witness :
    lookupKey (logoFormatsLoop [] "logo_light".toList
        [BFFormat.mk (some "png".toList) (some "a".toList),
         BFFormat.mk (some "svg".toList) (some "s".toList)]) "logo_light".toList
      = some (some "s".toList) ∧
    lookupKey (logoFormatsLoop [] "logo_light".toList
        [BFFormat.mk (some "png".toList) (some "a".toList),
         BFFormat.mk (some "png".toList) (some "b".toList)]) "logo_light".toList
      = some (some "b".toList) :=
  ⟨C7_logo_format_selection.1 [] "logo_light".toList
      [BFFormat.mk (some "png".toList) (some "a".toList),
       BFFormat.mk (some "svg".toList) (some "s".toList)]
      (BFFormat.mk (some "svg".toList) (some "s".toList)) (by decide),
   C7_logo_format_selection.2.1 [] "logo_light".toList
      [BFFormat.mk (some "png".toList) (some "a".toList),
       BFFormat.mk (some "png".toList) (some "b".toList)]
      (BFFormat.mk (some "png".toList) (some "b".toList)) (by decide) (by decide)⟩

end PartTime
